import Mathlib

/-!
Shallow embedding of src/pagerank.py (PageRank via random surfer and
Markov mixing).  Python floats are modelled by exact rationals, Python
errors (ZeroDivisionError, TypeError from a None index, IndexError on
an empty rank vector) by Option.none.  Matrices are lists of lists;
indexing uses List.getD, which agrees with Python indexing on the
well-shaped inputs the claims quantify over.
-/

namespace PageRank

/-- Division as in Python: fails (raises ZeroDivisionError) on a zero
denominator. -/
def qdiv (a b : ℚ) : Option ℚ :=
  if b = 0 then none else some (a / b)

/-- Runs the fallible body of a loop over every element in order and
collects the results; the first failure aborts the whole loop, the way
an uncaught Python exception does. -/
def traverseOption (f : α → Option β) : List α → Option (List β)
  | [] => some []
  | x :: xs =>
    match f x, traverseOption f xs with
    | some y, some ys => some (y :: ys)
    | _, _ => none

/-- Entry (i, j) of the transition matrix, from line 90 of pagerank.py:
(0.9 * counts[i][j] / out_degree[i]) + (0.1 * 1 / n).  The division by
out_degree[i] can fail. -/
def transitionEntry (counts : List (List ℤ)) (out_degree : List ℤ)
    (n i j : ℕ) : Option ℚ :=
  match qdiv ((9 : ℚ)/10 * (((counts.getD i []).getD j 0 : ℤ) : ℚ))
      (((out_degree.getD i 0 : ℤ) : ℚ)) with
  | none => none
  | some q => some (q + ((1 : ℚ)/10 * 1) / (n : ℚ))

/-- compute_transition from pagerank.py lines 69-92: builds the n-by-n
transition matrix, n = len(out_degree). -/
def compute_transition (counts : List (List ℤ)) (out_degree : List ℤ) :
    Option (List (List ℚ)) :=
  traverseOption
    (fun i => traverseOption (fun j => transitionEntry counts out_degree out_degree.length i j)
      (List.range out_degree.length))
    (List.range out_degree.length)

/-- The scan of make_one_move, lines 110-113: walk the row accumulating
psum; return the first index j (offset by the index already consumed)
where psum reaches r.  Falling off the end returns none, exactly as the
Python function falls through and returns None. -/
def scanRow : List ℚ → ℚ → ℚ → ℕ → Option ℕ
  | [], _, _, _ => none
  | x :: xs, r, psum, j =>
    if psum + x ≥ r then some j else scanRow xs r (psum + x) (j + 1)

/-- make_one_move from pagerank.py lines 95-113, with the random draw r
passed explicitly.  The loop runs j over range(n) with
n = len(transition_matrix), reading transition_matrix[page][j]. -/
def make_one_move (transition_matrix : List (List ℚ)) (page : ℕ) (r : ℚ) :
    Option ℕ :=
  scanRow ((transition_matrix.getD page []).take transition_matrix.length) r 0 0

/-- The simulation loop of random_surfer, lines 133-135: one draw per
step; a step whose move returns None crashes the program (the Python
code would then evaluate times_visited[None]). -/
def surfLoop (transition_matrix : List (List ℚ)) :
    List ℚ → ℕ → List ℕ → Option (ℕ × List ℕ)
  | [], page, tally => some (page, tally)
  | r :: rs, page, tally =>
    match make_one_move transition_matrix page r with
    | none => none
    | some p => surfLoop transition_matrix rs p (tally.set p (tally.getD p 0 + 1))

/-- random_surfer from pagerank.py lines 116-140, with the stream of
random draws passed explicitly (one per step).  The final loop divides
each visit count by num_steps, which fails when num_steps = 0 and there
is at least one node. -/
def random_surfer (transition_matrix : List (List ℚ)) (num_steps : ℕ)
    (draws : List ℚ) : Option (List ℚ) :=
  match surfLoop transition_matrix (draws.take num_steps) 0
      (List.replicate transition_matrix.length 0) with
  | none => none
  | some (_, tally) =>
    traverseOption (fun count : ℕ => qdiv (count : ℚ) (num_steps : ℚ)) tally

/-- One entry of new_rank in markov_mixing, lines 162-164: the inner
loop accumulates rank[j] * transition_matrix[j][i] over j in range(n). -/
def newRankEntry (transition_matrix : List (List ℚ)) (rank : List ℚ)
    (n i : ℕ) : ℚ :=
  (List.range n).foldl
    (fun acc j => acc + rank.getD j 0 * (transition_matrix.getD j []).getD i 0) 0

/-- One pass of the markov_mixing outer loop: new_rank as a whole. -/
def mixStep (transition_matrix : List (List ℚ)) (rank : List ℚ) (n : ℕ) :
    List ℚ :=
  (List.range n).map (fun i => newRankEntry transition_matrix rank n i)

/-- num_steps passes of the markov_mixing loop. -/
def mixIter (transition_matrix : List (List ℚ)) (n : ℕ) :
    ℕ → List ℚ → List ℚ
  | 0, rank => rank
  | k + 1, rank => mixIter transition_matrix n k (mixStep transition_matrix rank n)

/-- markov_mixing from pagerank.py lines 143-170.  The initial
assignment rank[0] = 1.0 raises IndexError when n = 0. -/
def markov_mixing (transition_matrix : List (List ℚ)) (num_steps : ℕ) :
    Option (List ℚ) :=
  if transition_matrix.length = 0 then none
  else some (mixIter transition_matrix transition_matrix.length num_steps
    ((List.replicate transition_matrix.length (0 : ℚ)).set 0 1))

/-- Cumulative sum of the first j+1 entries of a row: the value psum
holds when the scan tests column j. -/
def cumsum (row : List ℚ) (j : ℕ) : ℚ :=
  (row.take (j + 1)).sum

/-- The Markov Mixing Solver as the spec words it: start from the
distribution with all mass on node 0 and apply num_steps
left-multiplications new_rank[i] = sum over j of rank[j] * T[j][i]. -/
def markovMixingSpec (transition_matrix : List (List ℚ)) (num_steps : ℕ) :
    List ℚ :=
  (fun rank => (List.range transition_matrix.length).map (fun i =>
    ∑ j ∈ Finset.range transition_matrix.length,
      rank.getD j 0 * (transition_matrix.getD j []).getD i 0))^[num_steps]
    (1 :: List.replicate (transition_matrix.length - 1) 0)

/-- Exact value of a transition-matrix entry when the division by
out_degree[i] succeeds, written exactly as line 90 computes it. -/
def entryVal (counts : List (List ℤ)) (out_degree : List ℤ) (n i j : ℕ) : ℚ :=
  (9/10 * (((counts.getD i []).getD j 0 : ℤ) : ℚ)) / (((out_degree.getD i 0 : ℤ) : ℚ))
    + ((1 : ℚ)/10 * 1) / (n : ℚ)

theorem traverseOption_eq_map (f : α → Option β) (g : α → β) (l : List α)
    (h : ∀ x ∈ l, f x = some (g x)) : traverseOption f l = some (l.map g) := by
  induction l with
  | nil => rfl
  | cons x xs ih =>
    have hx := h x (List.mem_cons_self x xs)
    have hxs := ih (fun y hy => h y (List.mem_cons_of_mem x hy))
    simp [traverseOption, hx, hxs]

theorem traverseOption_eq_none (f : α → Option β) (l : List α) (x : α)
    (hx : x ∈ l) (hfx : f x = none) : traverseOption f l = none := by
  induction l with
  | nil => cases hx
  | cons y ys ih =>
    rcases List.mem_cons.mp hx with h | h
    · subst h; simp [traverseOption, hfx]
    · cases hfy : f y <;> simp [traverseOption, hfy, ih h]

theorem sum_range_getD {M : Type*} [AddCommMonoid M] (l : List M) :
    ∑ j ∈ Finset.range l.length, l.getD j 0 = l.sum := by
  induction l with
  | nil => simp
  | cons x xs ih =>
    rw [List.length_cons, Finset.sum_range_succ']
    simp only [List.getD_cons_succ, List.getD_cons_zero]
    rw [ih, List.sum_cons, add_comm]

theorem sum_map_range {M : Type*} [AddCommMonoid M] (f : ℕ → M) (n : ℕ) :
    ((List.range n).map f).sum = ∑ i ∈ Finset.range n, f i := by
  induction n with
  | zero => simp
  | succ m ih =>
    rw [List.range_succ, List.map_append, List.sum_append, Finset.sum_range_succ, ih]
    simp

theorem foldl_add_eq (f : ℕ → ℚ) (l : List ℕ) (a : ℚ) :
    l.foldl (fun acc j => acc + f j) a = a + (l.map f).sum := by
  induction l generalizing a with
  | nil => simp
  | cons x xs ih => simp [List.foldl_cons, ih, add_assoc]

theorem getD_map_range {β : Type*} (f : ℕ → β) (n i : ℕ) (hi : i < n) (d : β) :
    ((List.range n).map f).getD i d = f i := by
  have h1 : i < ((List.range n).map f).length := by simpa using hi
  rw [List.getD_eq_getElem _ _ h1, List.getElem_map, List.getElem_range]

theorem sum_set_add_one (l : List ℕ) (i : ℕ) (hi : i < l.length) :
    (l.set i (l.getD i 0 + 1)).sum = l.sum + 1 := by
  induction l generalizing i with
  | nil => simp at hi
  | cons x xs ih =>
    cases i with
    | zero =>
      simp only [List.set_cons_zero, List.sum_cons, List.getD_cons_zero]
      omega
    | succ m =>
      have hm : m < xs.length := by simpa using hi
      simp only [List.set_cons_succ, List.sum_cons, List.getD_cons_succ]
      rw [ih m hm]
      omega

theorem sum_map_div (l : List ℕ) (k : ℚ) :
    (l.map (fun c : ℕ => (c : ℚ) / k)).sum = (l.sum : ℚ) / k := by
  induction l with
  | nil => simp
  | cons x xs ih =>
    rw [List.map_cons, List.sum_cons, ih, List.sum_cons, Nat.cast_add, add_div]

theorem int_cast_list_sum (l : List ℤ) :
    ((l.sum : ℤ) : ℚ) = (l.map (fun c => ((c : ℤ) : ℚ))).sum := by
  induction l with
  | nil => simp
  | cons x xs ih => simp [List.sum_cons, ih]

theorem sum_range_cast_getD (l : List ℤ) :
    ∑ j ∈ Finset.range l.length, ((l.getD j 0 : ℤ) : ℚ) = ((l.sum : ℤ) : ℚ) := by
  induction l with
  | nil => simp
  | cons x xs ih =>
    rw [List.length_cons, Finset.sum_range_succ']
    simp only [List.getD_cons_succ, List.getD_cons_zero]
    rw [ih, List.sum_cons]
    push_cast
    ring

theorem getD_int_nonneg (l : List ℤ) (h : ∀ x ∈ l, 0 ≤ x) (j : ℕ) :
    0 ≤ l.getD j 0 := by
  by_cases hj : j < l.length
  · rw [List.getD_eq_getElem _ _ hj]
    exact h _ (List.getElem_mem _)
  · rw [List.getD_eq_default _ _ (le_of_not_lt hj)]

theorem transitionEntry_eq (counts : List (List ℤ)) (out_degree : List ℤ)
    (n i j : ℕ) (hd : out_degree.getD i 0 ≠ 0) :
    transitionEntry counts out_degree n i j =
      some (entryVal counts out_degree n i j) := by
  unfold transitionEntry qdiv
  rw [if_neg (show ¬(((out_degree.getD i 0 : ℤ) : ℚ) = 0) from by exact_mod_cast hd)]
  rfl

theorem compute_transition_eq (counts : List (List ℤ)) (out_degree : List ℤ)
    (hd : ∀ i < out_degree.length, out_degree.getD i 0 ≠ 0) :
    compute_transition counts out_degree =
      some ((List.range out_degree.length).map (fun i =>
        (List.range out_degree.length).map (fun j =>
          entryVal counts out_degree out_degree.length i j))) := by
  unfold compute_transition
  apply traverseOption_eq_map
  intro i hi
  apply traverseOption_eq_map
  intro j _
  exact transitionEntry_eq counts out_degree _ i j (hd i (List.mem_range.mp hi))

/-- C1: with n = len(out_degree) > 0 and every out-degree non-zero,
compute_transition returns the n-by-n matrix with entry (i, j) equal to
0.9 * (counts[i][j] / out_degree[i]) + 0.1 * (1/n). -/
theorem compute_transition_formula
    (counts : List (List ℤ)) (out_degree : List ℤ)
    (hn : 0 < out_degree.length)
    (hcl : counts.length = out_degree.length)
    (hrl : ∀ row ∈ counts, row.length = out_degree.length)
    (hnn : ∀ row ∈ counts, ∀ c ∈ row, 0 ≤ c)
    (hd : ∀ i < out_degree.length, out_degree.getD i 0 ≠ 0) :
    ∃ T, compute_transition counts out_degree = some T ∧
      T.length = out_degree.length ∧
      (∀ row ∈ T, row.length = out_degree.length) ∧
      ∀ i < out_degree.length, ∀ j < out_degree.length,
        (T.getD i []).getD j 0 =
          9/10 * ((((counts.getD i []).getD j 0 : ℤ) : ℚ)
              / (((out_degree.getD i 0 : ℤ) : ℚ)))
            + 1/10 * (1 / (out_degree.length : ℚ)) := by
  refine ⟨_, compute_transition_eq counts out_degree hd, ?_, ?_, ?_⟩
  · simp
  · intro row hrow
    rcases List.mem_map.mp hrow with ⟨i, _, h⟩
    rw [← h]
    simp
  · intro i hi j hj
    rw [getD_map_range _ _ _ hi, getD_map_range _ _ _ hj]
    unfold entryVal
    ring

/-- C1 witness: the spec's 3-cycle graph, whose transition matrix has
the stated closed form at every entry. -/
theorem compute_transition_formula_witness :
    ∃ T, compute_transition [[0, 1, 0], [0, 0, 1], [1, 0, 0]] [1, 1, 1] = some T ∧
      (T.getD 0 []).getD 1 0 = 9/10 * (((1 : ℚ)) / ((1 : ℚ))) + 1/10 * (1 / (3 : ℚ)) := by
  obtain ⟨T, hT, _, _, hval⟩ :=
    compute_transition_formula [[0, 1, 0], [0, 0, 1], [1, 0, 0]] [1, 1, 1]
      (by decide) (by decide) (by decide) (by decide) (by decide)
  refine ⟨T, hT, ?_⟩
  have := hval 0 (by decide) 1 (by decide)
  simpa using this

/-- C2: on valid input (non-negative counts, out-degrees at least 1,
row i of counts summing to out_degree[i]), every row of the transition
matrix sums to exactly 1 over the rationals. -/
theorem compute_transition_rows_sum_one
    (counts : List (List ℤ)) (out_degree : List ℤ)
    (hn : 0 < out_degree.length)
    (hcl : counts.length = out_degree.length)
    (hrl : ∀ row ∈ counts, row.length = out_degree.length)
    (hnn : ∀ row ∈ counts, ∀ c ∈ row, 0 ≤ c)
    (hd : ∀ i < out_degree.length, 1 ≤ out_degree.getD i 0)
    (hrow : ∀ i < out_degree.length, (counts.getD i []).sum = out_degree.getD i 0) :
    ∃ T, compute_transition counts out_degree = some T ∧
      ∀ row ∈ T, row.sum = 1 := by
  have hT := compute_transition_eq counts out_degree
    (fun i hi => by have := hd i hi; omega)
  refine ⟨_, hT, ?_⟩
  intro row hrowmem
  rcases List.mem_map.mp hrowmem with ⟨i, hi, h⟩
  rw [List.mem_range] at hi
  rw [← h, sum_map_range]
  have hdq : ((out_degree.getD i 0 : ℤ) : ℚ) ≠ 0 := by
    have := hd i hi
    exact_mod_cast (by omega : out_degree.getD i 0 ≠ 0)
  have hnq : ((out_degree.length : ℕ) : ℚ) ≠ 0 := by
    exact_mod_cast Nat.pos_iff_ne_zero.mp hn
  have hmem : counts.getD i [] ∈ counts := by
    rw [List.getD_eq_getElem _ _ (show i < counts.length by omega)]
    exact List.getElem_mem _
  have hlen : (counts.getD i []).length = out_degree.length := hrl _ hmem
  have hsum : ∑ j ∈ Finset.range out_degree.length,
      (((counts.getD i []).getD j 0 : ℤ) : ℚ) = ((out_degree.getD i 0 : ℤ) : ℚ) := by
    rw [← hlen, sum_range_cast_getD, hrow i hi]
  unfold entryVal
  rw [Finset.sum_add_distrib, ← Finset.sum_div, ← Finset.mul_sum, hsum,
    Finset.sum_const, Finset.card_range, nsmul_eq_mul]
  rw [mul_div_assoc, div_self hdq, mul_one]
  have h2 : ((out_degree.length : ℕ) : ℚ) * (((1 : ℚ)/10 * 1) / (out_degree.length : ℚ)) = 1/10 := by
    field_simp
    ring
  rw [h2]
  norm_num

/-- C2 witness: a two-node graph whose rows of counts sum to the
out-degrees; both transition rows sum to 1. -/
theorem compute_transition_rows_sum_one_witness :
    ∃ T, compute_transition [[1, 1], [2, 0]] [2, 2] = some T ∧
      ∀ row ∈ T, row.sum = 1 :=
  compute_transition_rows_sum_one [[1, 1], [2, 0]] [2, 2]
    (by decide) (by decide) (by decide) (by decide) (by decide) (by decide)

/-- C7: with non-negative counts and out-degrees at least 1, every
transition-matrix entry is at least the teleport floor 0.1/n, hence
non-zero. -/
theorem compute_transition_teleport_floor
    (counts : List (List ℤ)) (out_degree : List ℤ)
    (hn : 0 < out_degree.length)
    (hnn : ∀ row ∈ counts, ∀ c ∈ row, 0 ≤ c)
    (hd : ∀ i < out_degree.length, 1 ≤ out_degree.getD i 0) :
    ∃ T, compute_transition counts out_degree = some T ∧
      ∀ i < out_degree.length, ∀ j < out_degree.length,
        ((1 : ℚ)/10) / (out_degree.length : ℚ) ≤ (T.getD i []).getD j 0 ∧
        (T.getD i []).getD j 0 ≠ 0 := by
  have hT := compute_transition_eq counts out_degree
    (fun i hi => by have := hd i hi; omega)
  refine ⟨_, hT, ?_⟩
  intro i hi j hj
  rw [getD_map_range _ _ _ hi, getD_map_range _ _ _ hj]
  have hrownn : ∀ x ∈ counts.getD i [], (0 : ℤ) ≤ x := by
    by_cases hmem : i < counts.length
    · rw [List.getD_eq_getElem _ _ hmem]
      exact hnn _ (List.getElem_mem _)
    · rw [List.getD_eq_default _ _ (le_of_not_lt hmem)]
      intro x hx
      exact absurd hx (List.not_mem_nil x)
  have hc : (0 : ℚ) ≤ (((counts.getD i []).getD j 0 : ℤ) : ℚ) := by
    exact_mod_cast getD_int_nonneg _ hrownn j
  have hdge : (0 : ℚ) ≤ ((out_degree.getD i 0 : ℤ) : ℚ) := by
    have := hd i hi
    exact_mod_cast (by omega : (0 : ℤ) ≤ out_degree.getD i 0)
  have hfirst : (0 : ℚ) ≤
      (9/10 * (((counts.getD i []).getD j 0 : ℤ) : ℚ)) / ((out_degree.getD i 0 : ℤ) : ℚ) :=
    div_nonneg (by linarith) hdge
  have hpos : (0 : ℚ) < ((1 : ℚ)/10) / (out_degree.length : ℚ) := by
    apply div_pos (by norm_num)
    exact_mod_cast hn
  constructor
  · unfold entryVal
    have h2 : ((1 : ℚ)/10 * 1) / (out_degree.length : ℚ)
        = ((1 : ℚ)/10) / (out_degree.length : ℚ) := by ring
    linarith [h2.ge]
  · exact ne_of_gt (by
      unfold entryVal
      have h2 : ((1 : ℚ)/10 * 1) / (out_degree.length : ℚ)
          = ((1 : ℚ)/10) / (out_degree.length : ℚ) := by ring
      linarith)

/-- C7 witness: the two-node swap graph; every entry is at least
0.1/2 and non-zero. -/
theorem compute_transition_teleport_floor_witness :
    ∃ T, compute_transition [[0, 1], [1, 0]] [1, 1] = some T ∧
      ∀ i < ([1, 1] : List ℤ).length, ∀ j < ([1, 1] : List ℤ).length,
        ((1 : ℚ)/10) / ((([1, 1] : List ℤ).length : ℕ) : ℚ) ≤ (T.getD i []).getD j 0 ∧
        (T.getD i []).getD j 0 ≠ 0 :=
  compute_transition_teleport_floor [[0, 1], [1, 0]] [1, 1]
    (by decide) (by decide) (by decide)

/-- C9: rows with a zero out-degree make compute_transition fail with
an uncaught division-by-zero; nothing is caught and no value is
produced. -/
theorem compute_transition_div_by_zero
    (counts : List (List ℤ)) (out_degree : List ℤ) (i : ℕ)
    (hi : i < out_degree.length) (hz : out_degree.getD i 0 = 0) :
    compute_transition counts out_degree = none := by
  apply traverseOption_eq_none _ _ i (List.mem_range.mpr hi)
  apply traverseOption_eq_none _ _ 0 (List.mem_range.mpr (by omega))
  unfold transitionEntry qdiv
  rw [hz]
  simp

/-- C9 witness: the spec's own scenario, a 2-node graph with the single
edge 0 -> 1, where node 1 has out-degree 0. -/
theorem compute_transition_div_by_zero_witness :
    compute_transition [[0, 1], [0, 0]] [1, 0] = none :=
  compute_transition_div_by_zero [[0, 1], [0, 0]] [1, 0] 1 (by decide) (by decide)

/-- C10: with at least one node, random_surfer called with
num_steps = 0 fails with a division-by-zero while normalizing the
visit tally, instead of returning a rank vector. -/
theorem random_surfer_zero_steps
    (transition_matrix : List (List ℚ)) (draws : List ℚ)
    (hn : 1 ≤ transition_matrix.length) :
    random_surfer transition_matrix 0 draws = none := by
  unfold random_surfer
  rw [List.take_zero]
  show (match surfLoop transition_matrix [] 0 (List.replicate transition_matrix.length 0) with
    | none => none
    | some (_, tally) => traverseOption (fun count : ℕ => qdiv (count : ℚ) ((0 : ℕ) : ℚ)) tally) = none
  rw [show surfLoop transition_matrix [] 0 (List.replicate transition_matrix.length 0)
      = some (0, List.replicate transition_matrix.length 0) from rfl]
  apply traverseOption_eq_none _ _ 0
  · exact List.mem_replicate.mpr ⟨Nat.pos_iff_ne_zero.mp hn, rfl⟩
  · simp [qdiv]

/-- C10 witness: the one-node matrix with zero steps. -/
theorem random_surfer_zero_steps_witness :
    random_surfer [[(1 : ℚ)]] 0 [] = none :=
  random_surfer_zero_steps [[(1 : ℚ)]] [] (by decide)

theorem scanRow_first (xs : List ℚ) (r : ℚ) :
    ∀ (psum : ℚ) (j0 j : ℕ), j < xs.length →
      r ≤ psum + (xs.take (j + 1)).sum →
      (∀ k < j, psum + (xs.take (k + 1)).sum < r) →
      scanRow xs r psum j0 = some (j0 + j) := by
  induction xs with
  | nil =>
    intro psum j0 j hj _ _
    simp at hj
  | cons x ys ih =>
    intro psum j0 j hj hge hlt
    cases j with
    | zero =>
      simp only [List.take_succ_cons, List.take_zero, List.sum_cons, List.sum_nil,
        add_zero] at hge
      rw [scanRow, if_pos (by linarith), Nat.add_zero]
    | succ m =>
      have h0 := hlt 0 (Nat.succ_pos m)
      simp only [List.take_succ_cons, List.take_zero, List.sum_cons, List.sum_nil,
        add_zero] at h0
      rw [scanRow, if_neg (by push_neg; linarith)]
      have hm : m < ys.length := by simpa using hj
      have hge2 : r ≤ (psum + x) + (ys.take (m + 1)).sum := by
        simp only [List.take_succ_cons, List.sum_cons] at hge
        linarith
      have hlt2 : ∀ k < m, (psum + x) + (ys.take (k + 1)).sum < r := by
        intro k hk
        have := hlt (k + 1) (by omega)
        simp only [List.take_succ_cons, List.sum_cons] at this
        linarith
      rw [ih (psum + x) (j0 + 1) m hm hge2 hlt2]
      congr 1
      omega

/-- C4: make_one_move is inverse-CDF sampling with left-to-right tie
break: for a non-negative row and a draw r in [0, 1), whenever some
scanned column's cumulative probability reaches r, the smallest such
column index is returned. -/
theorem make_one_move_inverse_cdf
    (transition_matrix : List (List ℚ)) (page : ℕ) (r : ℚ) (j : ℕ)
    (hnn : ∀ x ∈ transition_matrix.getD page [], 0 ≤ x)
    (hr0 : 0 ≤ r) (hr1 : r < 1)
    (hj : j < ((transition_matrix.getD page []).take transition_matrix.length).length)
    (hge : r ≤ cumsum ((transition_matrix.getD page []).take transition_matrix.length) j)
    (hlt : ∀ k < j,
      cumsum ((transition_matrix.getD page []).take transition_matrix.length) k < r) :
    make_one_move transition_matrix page r = some j := by
  unfold make_one_move
  have h := scanRow_first ((transition_matrix.getD page []).take transition_matrix.length)
    r 0 0 j hj (by simpa [cumsum] using hge) (fun k hk => by simpa [cumsum] using hlt k hk)
  simpa using h

/-- C4 witness: a two-node row [1/2, 1/2] with draw 3/4; the scan stops
at column 1, the first whose cumulative probability reaches 3/4. -/
theorem make_one_move_inverse_cdf_witness :
    make_one_move [[(1 : ℚ)/2, 1/2], [1, 0]] 0 (3/4) = some 1 := by
  apply make_one_move_inverse_cdf
  · intro x hx
    simp at hx
    subst hx
    norm_num
  · norm_num
  · norm_num
  · norm_num
  · norm_num [cumsum]
  · intro k hk
    have hk0 : k = 0 := by omega
    subst hk0
    norm_num [cumsum]

theorem newRankEntry_eq (transition_matrix : List (List ℚ)) (rank : List ℚ)
    (n i : ℕ) :
    newRankEntry transition_matrix rank n i =
      ∑ j ∈ Finset.range n, rank.getD j 0 * (transition_matrix.getD j []).getD i 0 := by
  unfold newRankEntry
  rw [foldl_add_eq (fun j => rank.getD j 0 * (transition_matrix.getD j []).getD i 0)
    (List.range n) 0, zero_add, sum_map_range]

theorem mixIter_eq_iterate (transition_matrix : List (List ℚ)) (n k : ℕ)
    (rank : List ℚ) :
    mixIter transition_matrix n k rank
      = (fun v => mixStep transition_matrix v n)^[k] rank := by
  induction k generalizing rank with
  | zero => rfl
  | succ m ih =>
    rw [show mixIter transition_matrix n (m + 1) rank
        = mixIter transition_matrix n m (mixStep transition_matrix rank n) from rfl,
      Function.iterate_succ_apply]
    exact ih (mixStep transition_matrix rank n)

theorem init_rank_eq (n : ℕ) (hn : 1 ≤ n) :
    (List.replicate n (0 : ℚ)).set 0 1 = 1 :: List.replicate (n - 1) 0 := by
  cases n with
  | zero => omega
  | succ m => simp [List.replicate_succ]

/-- C3: markov_mixing performs exactly num_steps left-multiplications
of the start distribution with all mass on node 0, as the spec words
it, and with num_steps = 0 returns [1, 0, ..., 0]. -/
theorem markov_mixing_refines_spec
    (transition_matrix : List (List ℚ)) (num_steps : ℕ)
    (hn : 1 ≤ transition_matrix.length)
    (hrow : ∀ row ∈ transition_matrix,
      row.length = transition_matrix.length ∧ row.sum = 1) :
    markov_mixing transition_matrix num_steps
      = some (markovMixingSpec transition_matrix num_steps) ∧
    markov_mixing transition_matrix 0
      = some (1 :: List.replicate (transition_matrix.length - 1) 0) := by
  have hne : ¬ transition_matrix.length = 0 := by omega
  have hfun : (fun v => mixStep transition_matrix v transition_matrix.length)
      = (fun rank => (List.range transition_matrix.length).map (fun i =>
        ∑ j ∈ Finset.range transition_matrix.length,
          rank.getD j 0 * (transition_matrix.getD j []).getD i 0)) := by
    funext v
    unfold mixStep
    simp only [newRankEntry_eq]
  constructor
  · unfold markov_mixing markovMixingSpec
    rw [if_neg hne, init_rank_eq _ hn, mixIter_eq_iterate, hfun]
  · unfold markov_mixing
    rw [if_neg hne, init_rank_eq _ hn]
    rfl

/-- C3 witness: the one-node chain with two steps and with zero
steps. -/
theorem markov_mixing_refines_spec_witness :
    markov_mixing [[(1 : ℚ)]] 2 = some (markovMixingSpec [[(1 : ℚ)]] 2) ∧
    markov_mixing [[(1 : ℚ)]] 0 = some (1 :: List.replicate 0 0) :=
  markov_mixing_refines_spec [[(1 : ℚ)]] 2 (by norm_num)
    (by
      intro row h
      simp at h
      subst h
      norm_num)

theorem mixStep_sum (transition_matrix : List (List ℚ))
    (hrow : ∀ row ∈ transition_matrix,
      row.length = transition_matrix.length ∧ row.sum = 1)
    (rank : List ℚ) (hlen : rank.length = transition_matrix.length) :
    (mixStep transition_matrix rank transition_matrix.length).sum = rank.sum ∧
    (mixStep transition_matrix rank transition_matrix.length).length
      = transition_matrix.length := by
  constructor
  · unfold mixStep
    rw [sum_map_range]
    simp only [newRankEntry_eq]
    rw [Finset.sum_comm]
    have hinner : ∀ j ∈ Finset.range transition_matrix.length,
        ∑ i ∈ Finset.range transition_matrix.length,
          rank.getD j 0 * (transition_matrix.getD j []).getD i 0 = rank.getD j 0 := by
      intro j hj
      rw [Finset.mem_range] at hj
      have hmem : transition_matrix.getD j [] ∈ transition_matrix := by
        rw [List.getD_eq_getElem _ _ hj]
        exact List.getElem_mem _
      obtain ⟨hl, hs⟩ := hrow _ hmem
      rw [← Finset.mul_sum, ← hl, sum_range_getD, hs, mul_one]
    rw [Finset.sum_congr rfl hinner, ← hlen, sum_range_getD]
  · unfold mixStep
    simp

theorem mixIter_sum (transition_matrix : List (List ℚ))
    (hrow : ∀ row ∈ transition_matrix,
      row.length = transition_matrix.length ∧ row.sum = 1) (k : ℕ) :
    ∀ rank : List ℚ, rank.length = transition_matrix.length →
      (mixIter transition_matrix transition_matrix.length k rank).sum = rank.sum ∧
      (mixIter transition_matrix transition_matrix.length k rank).length
        = transition_matrix.length := by
  induction k with
  | zero => intro rank h; exact ⟨rfl, h⟩
  | succ m ih =>
    intro rank h
    have hs := mixStep_sum transition_matrix hrow rank h
    have hrec := ih (mixStep transition_matrix rank transition_matrix.length) hs.2
    rw [show mixIter transition_matrix transition_matrix.length (m + 1) rank
        = mixIter transition_matrix transition_matrix.length m
          (mixStep transition_matrix rank transition_matrix.length) from rfl]
    exact ⟨hrec.1.trans hs.1, hrec.2⟩

/-- C8: for a row-stochastic matrix, the rank vector markov_mixing
produces sums to exactly 1 for every num_steps; summing to 1 is
preserved by each left-multiplication step. -/
theorem markov_mixing_sum_one
    (transition_matrix : List (List ℚ)) (num_steps : ℕ)
    (hn : 1 ≤ transition_matrix.length)
    (hrow : ∀ row ∈ transition_matrix,
      row.length = transition_matrix.length ∧ row.sum = 1) :
    ∃ rank, markov_mixing transition_matrix num_steps = some rank ∧
      rank.sum = 1 := by
  have hne : ¬ transition_matrix.length = 0 := by omega
  have hinit_len : ((List.replicate transition_matrix.length (0 : ℚ)).set 0 1).length
      = transition_matrix.length := by simp
  have hinit_sum : ((List.replicate transition_matrix.length (0 : ℚ)).set 0 1).sum
      = 1 := by
    rw [init_rank_eq _ hn]
    simp
  refine ⟨mixIter transition_matrix transition_matrix.length num_steps
    ((List.replicate transition_matrix.length (0 : ℚ)).set 0 1), ?_, ?_⟩
  · unfold markov_mixing
    rw [if_neg hne]
  · rw [(mixIter_sum transition_matrix hrow num_steps _ hinit_len).1, hinit_sum]

/-- C8 witness: the symmetric two-node chain for three steps. -/
theorem markov_mixing_sum_one_witness :
    ∃ rank, markov_mixing [[(1 : ℚ)/2, 1/2], [1/2, 1/2]] 3 = some rank ∧
      rank.sum = 1 :=
  markov_mixing_sum_one [[(1 : ℚ)/2, 1/2], [1/2, 1/2]] 3 (by norm_num)
    (by
      intro row h
      simp at h
      subst h
      norm_num)

theorem scanRow_reaches (xs : List ℚ) (r : ℚ) :
    ∀ (psum : ℚ) (j0 : ℕ), xs ≠ [] → r ≤ psum + xs.sum →
      ∃ k, k < xs.length ∧ scanRow xs r psum j0 = some (j0 + k) := by
  induction xs with
  | nil => intro _ _ h _; exact absurd rfl h
  | cons x ys ih =>
    intro psum j0 _ hsum
    by_cases hx : psum + x ≥ r
    · exact ⟨0, by simp, by rw [scanRow, if_pos hx, Nat.add_zero]⟩
    · push_neg at hx
      have hys : ys ≠ [] := by
        intro he
        subst he
        simp at hsum
        linarith
      have hsum2 : r ≤ (psum + x) + ys.sum := by
        rw [List.sum_cons] at hsum
        linarith
      obtain ⟨k, hk, hres⟩ := ih (psum + x) (j0 + 1) hys hsum2
      refine ⟨k + 1, by simpa using Nat.succ_lt_succ hk, ?_⟩
      rw [scanRow, if_neg (by push_neg; exact hx), hres]
      congr 1
      omega

theorem make_one_move_mem (transition_matrix : List (List ℚ))
    (hrow : ∀ row ∈ transition_matrix,
      row.length = transition_matrix.length ∧ row.sum = 1)
    (hn : 1 ≤ transition_matrix.length)
    (page : ℕ) (hpage : page < transition_matrix.length) (r : ℚ) (hr : r < 1) :
    ∃ p, p < transition_matrix.length ∧
      make_one_move transition_matrix page r = some p := by
  have hmem : transition_matrix.getD page [] ∈ transition_matrix := by
    rw [List.getD_eq_getElem _ _ hpage]
    exact List.getElem_mem _
  obtain ⟨hlen, hsum⟩ := hrow _ hmem
  have htake : (transition_matrix.getD page []).take transition_matrix.length
      = transition_matrix.getD page [] :=
    List.take_of_length_le (le_of_eq hlen)
  have hne : transition_matrix.getD page [] ≠ [] := by
    intro he
    rw [he] at hlen
    simp at hlen
    omega
  unfold make_one_move
  rw [htake]
  obtain ⟨k, hk, hres⟩ := scanRow_reaches (transition_matrix.getD page []) r 0 0 hne
    (by rw [hsum]; linarith)
  rw [hlen] at hk
  exact ⟨k, hk, by simpa using hres⟩

theorem surfLoop_success (transition_matrix : List (List ℚ))
    (hrow : ∀ row ∈ transition_matrix,
      row.length = transition_matrix.length ∧ row.sum = 1)
    (hn : 1 ≤ transition_matrix.length) :
    ∀ (rs : List ℚ), (∀ r ∈ rs, r < 1) →
    ∀ (page : ℕ) (tally : List ℕ),
      page < transition_matrix.length →
      tally.length = transition_matrix.length →
      ∃ pg t2, surfLoop transition_matrix rs page tally = some (pg, t2) ∧
        t2.length = transition_matrix.length ∧
        t2.sum = tally.sum + rs.length := by
  intro rs
  induction rs with
  | nil =>
    intro _ page tally hp ht
    exact ⟨page, tally, rfl, ht, by simp⟩
  | cons r rest ih =>
    intro hr page tally hp ht
    obtain ⟨p, hplt, hmove⟩ := make_one_move_mem transition_matrix hrow hn page hp r
      (hr r (List.mem_cons_self r rest))
    have ht2 : (tally.set p (tally.getD p 0 + 1)).length = transition_matrix.length := by
      simp [ht]
    obtain ⟨pg, t2, hloop, hl, hs⟩ :=
      ih (fun x hx => hr x (List.mem_cons_of_mem _ hx)) p _ hplt ht2
    refine ⟨pg, t2, ?_, hl, ?_⟩
    · simp only [surfLoop, hmove]
      exact hloop
    · rw [hs, sum_set_add_one tally p (by omega)]
      simp only [List.length_cons]
      omega

/-- C6: for a row-stochastic matrix with n >= 1 and num_steps > 0, the
random surfer's visit tally sums to exactly num_steps after the loop
and the derived rank vector sums to exactly 1. -/
theorem random_surfer_tally_and_rank_sum
    (transition_matrix : List (List ℚ)) (num_steps : ℕ) (draws : List ℚ)
    (hn : 1 ≤ transition_matrix.length)
    (hrow : ∀ row ∈ transition_matrix,
      row.length = transition_matrix.length ∧ row.sum = 1)
    (hdraws : ∀ r ∈ draws, 0 ≤ r ∧ r < 1)
    (hlen : num_steps ≤ draws.length)
    (hpos : 0 < num_steps) :
    ∃ pg tally ranks,
      surfLoop transition_matrix (draws.take num_steps) 0
        (List.replicate transition_matrix.length 0) = some (pg, tally) ∧
      tally.sum = num_steps ∧
      random_surfer transition_matrix num_steps draws = some ranks ∧
      ranks.sum = 1 := by
  obtain ⟨pg, tally, hloop, hlen2, hsum⟩ := surfLoop_success transition_matrix hrow hn
    (draws.take num_steps) (fun r hr => (hdraws r (List.mem_of_mem_take hr)).2) 0
    (List.replicate transition_matrix.length 0) (by omega) (by simp)
  have htallysum : tally.sum = num_steps := by
    rw [hsum]
    simp only [List.sum_replicate, smul_zero, zero_add, List.length_take]
    omega
  have hkq : ((num_steps : ℕ) : ℚ) ≠ 0 := by
    exact_mod_cast Nat.pos_iff_ne_zero.mp hpos
  have hranks : random_surfer transition_matrix num_steps draws
      = some (tally.map (fun c : ℕ => (c : ℚ) / (num_steps : ℚ))) := by
    unfold random_surfer
    rw [hloop]
    apply traverseOption_eq_map
    intro c _
    unfold qdiv
    rw [if_neg hkq]
  refine ⟨pg, tally, _, hloop, htallysum, hranks, ?_⟩
  rw [sum_map_div, htallysum, div_self hkq]

/-- C6 witness: the symmetric two-node chain, two steps, draws 1/4 and
3/4; the tally sums to 2 and the ranks to 1. -/
theorem random_surfer_tally_and_rank_sum_witness :
    ∃ pg tally ranks,
      surfLoop [[(1 : ℚ)/2, 1/2], [1/2, 1/2]] ([(1 : ℚ)/4, 3/4].take 2) 0
        (List.replicate ([[(1 : ℚ)/2, 1/2], [1/2, 1/2]] : List (List ℚ)).length 0)
        = some (pg, tally) ∧
      tally.sum = 2 ∧
      random_surfer [[(1 : ℚ)/2, 1/2], [1/2, 1/2]] 2 [(1 : ℚ)/4, 3/4] = some ranks ∧
      ranks.sum = 1 :=
  random_surfer_tally_and_rank_sum [[(1 : ℚ)/2, 1/2], [1/2, 1/2]] 2 [(1 : ℚ)/4, 3/4]
    (by norm_num)
    (by
      intro row h
      simp at h
      subst h
      norm_num)
    (by
      intro r h
      simp at h
      rcases h with h | h <;> subst h <;> norm_num)
    (by norm_num)
    (by norm_num)

/-- C5 counterexample: a non-negative row whose scan exhausts without
reaching the drawn value r = 1/2; make_one_move returns none (the
Python function returns None), not the last column index. -/
theorem make_one_move_no_fallback :
    make_one_move [[(0 : ℚ)]] 0 (1/2) = none := by
  norm_num [make_one_move, scanRow]

/-- C5 amended: when the scan exhausts the row with every cumulative
sum short of r, make_one_move returns none (Python None) — there is no
last-column fallback and no node index is produced. -/
theorem make_one_move_exhaust
    (transition_matrix : List (List ℚ)) (page : ℕ) (r : ℚ)
    (hlt : ∀ k < ((transition_matrix.getD page []).take transition_matrix.length).length,
      cumsum ((transition_matrix.getD page []).take transition_matrix.length) k < r) :
    make_one_move transition_matrix page r = none := by
  unfold make_one_move
  have main : ∀ (xs : List ℚ) (psum : ℚ) (j0 : ℕ),
      (∀ k < xs.length, psum + (xs.take (k + 1)).sum < r) →
      scanRow xs r psum j0 = none := by
    intro xs
    induction xs with
    | nil => intro psum j0 _; rfl
    | cons x ys ih =>
      intro psum j0 h
      have h0 := h 0 (by simp)
      simp only [List.take_succ_cons, List.take_zero, List.sum_cons, List.sum_nil,
        add_zero] at h0
      rw [scanRow, if_neg (by push_neg; linarith)]
      apply ih
      intro k hk
      have hk1 := h (k + 1) (by simpa using Nat.succ_lt_succ hk)
      simp only [List.take_succ_cons, List.sum_cons] at hk1
      linarith
  apply main
  intro k hk
  have := hlt k hk
  simpa [cumsum] using this

/-- C5 amended witness: the same concrete exhausting input. -/
theorem make_one_move_exhaust_witness :
    make_one_move [[(0 : ℚ)]] 0 (1/2) = none :=
  make_one_move_exhaust [[(0 : ℚ)]] 0 (1/2) (by
    intro k hk
    have hk0 : k = 0 := by simpa using hk
    subst hk0
    norm_num [cumsum])

end PageRank
